import Mathlib

/-!
# Verification of the land-certificate blockchain core

A shallow embedding in Lean 4 of the ledger engine found in `blockchain.py`
(class `Block`, class `Blockchain`) and of the mempool-merge operation that
`app.py` invokes.  Machine integers are modelled as `Nat` with explicit
reduction modulo `2^32` where the SHA-256 arithmetic wraps; hex digests are
modelled as lists of nibbles (numbers `< 16`), matching Python's
`hashlib.sha256(...).hexdigest()` character by character; Python strings used
as digest inputs are modelled as their lists of ASCII byte values.
-/

set_option maxRecDepth 100000

namespace LandChain

/-! ## SHA-256 (`hashlib.sha256`), executable over `Nat` byte lists -/

/-- `2^32`, the wrap-around modulus of SHA-256 word arithmetic. -/
def M32 : Nat := 4294967296

/-- Right rotation of a 32-bit word (input assumed `< M32`). -/
def rotr32 (n x : Nat) : Nat := ((x >>> n) ||| ((x <<< (32 - n)) % M32)) % M32

/-- `Ch(x,y,z)` of FIPS 180-4. -/
def ch32 (x y z : Nat) : Nat := (x &&& y) ^^^ ((x ^^^ (M32 - 1)) &&& z)

/-- `Maj(x,y,z)` of FIPS 180-4. -/
def maj32 (x y z : Nat) : Nat := (x &&& y) ^^^ (x &&& z) ^^^ (y &&& z)

/-- Big sigma 0. -/
def bsig0 (x : Nat) : Nat := rotr32 2 x ^^^ rotr32 13 x ^^^ rotr32 22 x

/-- Big sigma 1. -/
def bsig1 (x : Nat) : Nat := rotr32 6 x ^^^ rotr32 11 x ^^^ rotr32 25 x

/-- Small sigma 0. -/
def ssig0 (x : Nat) : Nat := rotr32 7 x ^^^ rotr32 18 x ^^^ (x >>> 3)

/-- Small sigma 1. -/
def ssig1 (x : Nat) : Nat := rotr32 17 x ^^^ rotr32 19 x ^^^ (x >>> 10)

/-- The 64 SHA-256 round constants of FIPS 180-4 (decimal). -/
def K256 : List Nat :=
  [1116352408, 1899447441, 3049323471, 3921009573, 961987163, 1508970993,
   2453635748, 2870763221, 3624381080, 310598401, 607225278, 1426881987,
   1925078388, 2162078206, 2614888103, 3248222580, 3835390401, 4022224774,
   264347078, 604807628, 770255983, 1249150122, 1555081692, 1996064986,
   2554220882, 2821834349, 2952996808, 3210313671, 3336571891, 3584528711,
   113926993, 338241895, 666307205, 773529912, 1294757372, 1396182291,
   1695183700, 1986661051, 2177026350, 2456956037, 2730485921, 2820302411,
   3259730800, 3345764771, 3516065817, 3600352804, 4094571909, 275423344,
   430227734, 506948616, 659060556, 883997877, 958139571, 1322822218,
   1537002063, 1747873779, 1955562222, 2024104815, 2227730452, 2361852424,
   2428436474, 2756734187, 3204031479, 3329325298]

/-- The eight SHA-256 initial hash values. -/
structure H8 where
  a : Nat
  b : Nat
  c : Nat
  d : Nat
  e : Nat
  f : Nat
  g : Nat
  h : Nat
deriving Repr, DecidableEq

/-- Initial SHA-256 state. -/
def sha256Init : H8 :=
  ⟨0x6a09e667, 0xbb67ae85, 0x3c6ef372, 0xa54ff53a,
   0x510e527f, 0x9b05688c, 0x1f83d9ab, 0x5be0cd19⟩

/-- Group a byte list into big-endian 32-bit words (4 bytes per word). -/
def toWords : List Nat → List Nat
  | b0 :: b1 :: b2 :: b3 :: rest =>
      (((b0 <<< 24) ||| (b1 <<< 16) ||| (b2 <<< 8) ||| b3) % M32) :: toWords rest
  | _ => []

/-- Extend the 16 message-schedule words to 64, appending `fuel` more words. -/
def schedule (ws : List Nat) : Nat → List Nat
  | 0 => ws
  | fuel + 1 =>
      let n := ws.length
      let next := (ssig1 (ws.getD (n - 2) 0) + ws.getD (n - 7) 0 +
                   ssig0 (ws.getD (n - 15) 0) + ws.getD (n - 16) 0) % M32
      schedule (ws ++ [next]) fuel

/-- One SHA-256 round, fed the pair (round constant, schedule word). -/
def round256 (s : H8) (kw : Nat × Nat) : H8 :=
  let t1 := (s.h + bsig1 s.e + ch32 s.e s.f s.g + kw.1 + kw.2) % M32
  let t2 := (bsig0 s.a + maj32 s.a s.b s.c) % M32
  ⟨(t1 + t2) % M32, s.a, s.b, s.c, (s.d + t1) % M32, s.e, s.f, s.g⟩

/-- Compress one 64-byte block into the running state. -/
def compress (s0 : H8) (block : List Nat) : H8 :=
  let w := schedule (toWords block) 48
  let s := (K256.zip w).foldl round256 s0
  ⟨(s0.a + s.a) % M32, (s0.b + s.b) % M32, (s0.c + s.c) % M32, (s0.d + s.d) % M32,
   (s0.e + s.e) % M32, (s0.f + s.f) % M32, (s0.g + s.g) % M32, (s0.h + s.h) % M32⟩

/-- SHA-256 padding: append `0x80`, zeros, then the 64-bit big-endian bit length. -/
def sha256Pad (msg : List Nat) : List Nat :=
  let len := msg.length
  let zeros := (119 - (len % 64)) % 64
  let bitLen := (len * 8) % 18446744073709551616
  msg ++ 0x80 :: List.replicate zeros 0 ++
    [(bitLen >>> 56) % 256, (bitLen >>> 48) % 256, (bitLen >>> 40) % 256, (bitLen >>> 32) % 256,
     (bitLen >>> 24) % 256, (bitLen >>> 16) % 256, (bitLen >>> 8) % 256, bitLen % 256]

/-- Split a list into 64-byte chunks (fuel-based so the kernel can reduce it;
the fuel `l.length` always suffices since each step consumes 64 bytes). -/
def chunks64Aux : Nat → List Nat → List (List Nat)
  | 0, _ => []
  | _, [] => []
  | fuel + 1, l => l.take 64 :: chunks64Aux fuel (l.drop 64)

/-- Split a list into 64-byte chunks. -/
def chunks64 (l : List Nat) : List (List Nat) := chunks64Aux l.length l

/-- Serialize the eight-word state to 32 bytes, big-endian. -/
def stateBytes (s : H8) : List Nat :=
  [s.a, s.b, s.c, s.d, s.e, s.f, s.g, s.h].flatMap fun x =>
    [(x >>> 24) % 256, (x >>> 16) % 256, (x >>> 8) % 256, x % 256]

/-- SHA-256 of a byte list, as the list of 32 digest bytes. -/
def sha256 (msg : List Nat) : List Nat :=
  stateBytes ((chunks64 (sha256Pad msg)).foldl compress sha256Init)

/-- `hexdigest()`: the digest as a list of 64 hex nibbles (numbers `< 16`). -/
def sha256hex (msg : List Nat) : List Nat :=
  (sha256 msg).flatMap fun b => [b / 16, b % 16]

/-- ASCII byte values of a Python string (`str.encode()`); inputs are ASCII. -/
def strBytes (s : String) : List Nat := s.toList.map Char.toNat

/-! ## JSON serialization (`json.dumps(..., sort_keys=True)`) -/

/-- The JSON values the ledger serializes: nulls, strings, non-negative
numbers, arrays and objects (Python dicts). -/
inductive JVal where
  | null : JVal
  | str : String → JVal
  | num : Nat → JVal
  | arr : List JVal → JVal
  | obj : List (String × JVal) → JVal
deriving Repr

/-- Lexicographic order on character lists by code point — how Python
compares the strings handed to `sorted`. -/
def leChars : List Char → List Char → Bool
  | [], _ => true
  | _ :: _, [] => false
  | c :: cs, d :: ds => if c = d then leChars cs ds else decide (c.toNat < d.toNat)

/-- Python's `≤` on strings (code-point lexicographic). -/
def strLe (a b : String) : Bool := leChars a.toList b.toList

/-- `sort_keys=True`: render an object's fields in ascending key order
(Python's stable `sorted` on the keys, modelled by insertion sort). -/
def sortFields (fs : List (String × JVal)) : List (String × JVal) :=
  fs.insertionSort fun a b => strLe a.1 b.1 = true

/-- An opening brace as text. -/
def obrace : String := "\x7b"

/-- A closing brace as text. -/
def cbrace : String := "\x7d"

/-- A JSON string literal (the strings the program serializes contain no
characters that `json.dumps` would escape). -/
def jquote (s : String) : String := "\"" ++ s ++ "\""

/-- `json.dumps(v, sort_keys=True)` with the default separators `", "` and
`": "`.  The recursion is fuelled so that the kernel can evaluate it; every
value the program serializes nests at most 3 deep, far below the fuel used
by `jdump`. -/
def jdumpF : Nat → JVal → String
  | 0, _ => ""
  | fuel + 1, v =>
    match v with
    | .null => "null"
    | .str s => jquote s
    | .num n => toString n
    | .arr xs => "[" ++ String.intercalate ", " (xs.map (jdumpF fuel)) ++ "]"
    | .obj fs =>
        obrace ++
          String.intercalate ", "
            ((sortFields fs).map fun p => jquote p.1 ++ ": " ++ jdumpF fuel p.2) ++
        cbrace

/-- `json.dumps(v, sort_keys=True)`. -/
def jdump (v : JVal) : String := jdumpF 16 v

/-! ## Blocks (`class Block`) -/

/-- Render a hex digest (list of nibbles) back as the hex string Python
stores in the `previous_hash` / `hash` fields. -/
def hexChar (n : Nat) : Char :=
  if n < 10 then Char.ofNat (48 + n) else Char.ofNat (87 + n)

/-- A stored hash string; the genesis sentinel `"0"` is `[0]`. -/
def hexStr (nibbles : List Nat) : String := String.mk (nibbles.map hexChar)

/-- One certificate entry, as built by `add_certificate`. -/
structure Cert where
  nama : String
  nomor_sertifikat : String
  lokasi : String
  luas : String
  file_hash : Option String
deriving Repr, DecidableEq

/-- The dict `add_certificate` appends to `current_data`. -/
def Cert.toJ (c : Cert) : JVal :=
  .obj [("nama", .str c.nama), ("nomor_sertifikat", .str c.nomor_sertifikat),
        ("lokasi", .str c.lokasi), ("luas", .str c.luas),
        ("file_hash", match c.file_hash with | none => .null | some h => .str h)]

/-- A block.  `previous_hash` and `hash` are stored hex strings, modelled as
nibble lists; `data` is the block's payload dict/list. -/
structure Block where
  index : Nat
  timestamp : Nat
  data : JVal
  previous_hash : List Nat
  proof : Nat
  nonce : Nat
  hash : List Nat
deriving Repr

instance : Inhabited Block := ⟨⟨0, 0, .null, [], 0, 0, []⟩⟩

/-- The field dict built inside `Block.hash_block`, in the source's literal
insertion order (`json.dumps(..., sort_keys=True)` then sorts the keys). -/
def blockFields (index timestamp : Nat) (data : JVal) (previous_hash : List Nat)
    (proof nonce : Nat) : List (String × JVal) :=
  [("index", .num index), ("timestamp", .num timestamp), ("data", data),
   ("previous_hash", .str (hexStr previous_hash)), ("proof", .num proof),
   ("nonce", .num nonce)]

/-- `Block.hash_block`: SHA-256 hex digest of the sorted-keys JSON dump of
the six content fields. -/
def Block.hash_block (b : Block) : List Nat :=
  sha256hex (strBytes (jdump (JVal.obj
    (blockFields b.index b.timestamp b.data b.previous_hash b.proof b.nonce))))

/-- `Block.__init__`: store the six content fields and compute `hash` from
them via `hash_block`. -/
def Block.init (index timestamp : Nat) (data : JVal) (previous_hash : List Nat)
    (proof : Nat) (nonce : Nat) : Block :=
  let b : Block := ⟨index, timestamp, data, previous_hash, proof, nonce, []⟩
  { b with hash := b.hash_block }

/-- A raw block dict received from a peer: `nonce` and `hash` are optional
(`d.get("nonce", 0)`, `d.get("hash", ...)`), the rest are required. -/
structure BlockDict where
  index : Nat
  timestamp : Nat
  data : JVal
  previous_hash : List Nat
  proof : Nat
  nonce : Option Nat
  hash : Option (List Nat)
deriving Repr

/-- `Block.from_dict`: rebuild a block, keeping the stored hash when present
and recomputing it otherwise. -/
def Block.from_dict (d : BlockDict) : Block :=
  let b := Block.init d.index d.timestamp d.data d.previous_hash d.proof (d.nonce.getD 0)
  match d.hash with
  | some h => { b with hash := h }
  | none => b

/-! ## Ledger state (`class Blockchain`) -/

/-- The mutable state of `class Blockchain`.  `nodes` is the peer set,
modelled as a duplicate-free list; `storage_path` persistence is out of the
embedding (it never feeds back into the state transitions proved about). -/
structure Blockchain where
  chain : List Block
  current_data : List Cert
  nodes : List String
  difficulty : Nat
deriving Repr

/-- `create_genesis_block`: index 1, note payload, sentinel previous-hash
`"0"`, proof 0 (the wall-clock timestamp is a parameter of the embedding). -/
def create_genesis_block (timestamp : Nat) : Block :=
  Block.init 1 timestamp (.obj [("note", .str "Genesis Block")]) [0] 0 0

/-- A freshly constructed `Blockchain` (no persisted file): genesis only. -/
def newBlockchain (difficulty timestamp : Nat) : Blockchain :=
  { chain := [create_genesis_block timestamp], current_data := [], nodes := [],
    difficulty := difficulty }

/-- `last_block`: `self.chain[-1]`. -/
def Blockchain.last_block (bc : Blockchain) : Block := bc.chain.getLastD default

/-- `add_certificate`: append the entry dict to `current_data`; return the
index the data is expected to land in. -/
def add_certificate (bc : Blockchain) (nama nomor lokasi luas : String)
    (file_hash : Option String) : Blockchain × Nat :=
  ({ bc with current_data := bc.current_data ++ [⟨nama, nomor, lokasi, luas, file_hash⟩] },
   bc.last_block.index + 1)

/-! ## Proof of work -/

/-- `str.startswith('0' * difficulty)` on a digest modelled as nibbles: the
prefix must fit and be all zero. -/
def startsWithZeros (digest : List Nat) (difficulty : Nat) : Bool :=
  decide (difficulty ≤ digest.length) && (digest.take difficulty).all (· == 0)

/-- The digest of `f"{last_proof}{proof}"` both the miner and the validators
recompute. -/
def powDigest (last_proof proof : Nat) : List Nat :=
  sha256hex (strBytes (toString last_proof ++ toString proof))

/-- `Blockchain.valid_proof`. -/
def valid_proof (last_proof proof difficulty : Nat) : Bool :=
  startsWithZeros (powDigest last_proof proof) difficulty

/-- `Blockchain.proof_of_work`: the `proof = 0; while ...: proof += 1` loop.
It terminates exactly when some valid proof exists, and then returns the
least one, which is what `Nat.find` yields. -/
def proof_of_work (difficulty last_proof : Nat)
    (h : ∃ p, valid_proof last_proof p difficulty = true) : Nat :=
  Nat.find h

/-! ## Appending blocks -/

/-- `Blockchain.new_block`: build the next block from the found proof and the
buffered data, clear the buffer, append, return the new state and block.
`previous_hash or self.last_block().hash` falls back to the head's hash when
the argument is `None` or the empty (falsy) string. -/
def new_block (bc : Blockchain) (timestamp proof : Nat)
    (previous_hash : Option (List Nat)) : Blockchain × Block :=
  let prev_hash :=
    match previous_hash with
    | some ph => if ph.isEmpty then bc.last_block.hash else ph
    | none => bc.last_block.hash
  let block := Block.init (bc.last_block.index + 1) timestamp
    (.arr (bc.current_data.map Cert.toJ)) prev_hash proof 0
  ({ bc with current_data := [], chain := bc.chain ++ [block] }, block)

/-- `Blockchain.add_certificate_and_mine`: buffer the entry, mine from the
head's proof, then append with the head's hash as previous hash.  Returns
the new state, the new block and the found proof. -/
def add_certificate_and_mine (bc : Blockchain) (timestamp : Nat)
    (nama nomor lokasi luas : String) (file_hash : Option String)
    (h : ∃ p, valid_proof bc.last_block.proof p bc.difficulty = true) :
    Blockchain × Block × Nat :=
  let bc1 := (add_certificate bc nama nomor lokasi luas file_hash).1
  let proof := proof_of_work bc.difficulty bc.last_block.proof h
  let (bc2, block) := new_block bc1 timestamp proof (some bc1.last_block.hash)
  (bc2, block, proof)

/-! ## Chain validation -/

/-- The three per-pair checks shared by `is_chain_valid` and
`valid_chain_from_nodes`, with `is_chain_valid`'s failure message. -/
def chainStep (difficulty : Nat) (previous current : Block) : Option String :=
  if current.previous_hash ≠ previous.hash then
    some ("Previous hash mismatch at index " ++ toString current.index)
  else if current.hash ≠ current.hash_block then
    some ("Hash content mismatch at index " ++ toString current.index)
  else if startsWithZeros (powDigest previous.proof current.proof) difficulty = false then
    some ("Proof of Work invalid at index " ++ toString current.index)
  else none

/-- The `for i in range(1, len(chain))` loop of `is_chain_valid`, with its
early returns. -/
def checkFrom (difficulty : Nat) : List Block → Bool × String
  | previous :: current :: rest =>
      match chainStep difficulty previous current with
      | some msg => (false, msg)
      | none => checkFrom difficulty (current :: rest)
  | _ => (true, "Chain valid")

/-- `Blockchain.is_chain_valid`. -/
def is_chain_valid (bc : Blockchain) : Bool × String :=
  checkFrom bc.difficulty bc.chain

/-- The same pairwise loop as run by `valid_chain_from_nodes` (no message). -/
def pairsOk (difficulty : Nat) : List Block → Bool
  | previous :: current :: rest =>
      (chainStep difficulty previous current).isNone && pairsOk difficulty (current :: rest)
  | _ => true

/-- `Blockchain.valid_chain_from_nodes`: convert the raw dicts, run the
pairwise checks, return `(False, [])` on any failure. -/
def valid_chain_from_nodes (difficulty : Nat) (chain_data : List BlockDict) :
    Bool × List Block :=
  let candidate := chain_data.map Block.from_dict
  if pairsOk difficulty candidate then (true, candidate) else (false, [])

/-! ## Consensus (`resolve_conflicts`) -/

/-- One peer's `/chain` response body: `data.get("length")` and
`data.get("chain")`, each possibly missing. -/
structure PeerResp where
  length : Option Nat
  chain : Option (List BlockDict)

/-- The body of `resolve_conflicts`' loop for one peer.  `acc` carries
`(max_length, new_chain)`.  A `none` response is a network failure or
non-200 status: the peer is skipped (`continue`), as is a response missing
`length` or `chain`. -/
def considerPeer (difficulty : Nat) (acc : Nat × Option (List Block))
    (resp : Option PeerResp) : Nat × Option (List Block) :=
  match resp with
  | none => acc
  | some r =>
    match r.length, r.chain with
    | some length, some chain_data =>
        if acc.1 < length then
          let vc := valid_chain_from_nodes difficulty chain_data
          if vc.1 && decide (acc.1 < vc.2.length) then (vc.2.length, some vc.2) else acc
        else acc
    | _, _ => acc

/-- `Blockchain.resolve_conflicts` over the list of peer responses of one
resolution cycle.  `max_length` starts at the local chain length; a final
`if new_chain:` (falsy on `None` and on the empty list) decides replacement.
The mempool buffer `current_data` is not touched. -/
def resolve_conflicts (bc : Blockchain) (responses : List (Option PeerResp)) :
    Blockchain × Bool × String :=
  let res := responses.foldl (considerPeer bc.difficulty) (bc.chain.length, none)
  match res.2 with
  | some c =>
      if c.isEmpty then (bc, false, "No longer valid chain found")
      else ({ bc with chain := c }, true, "Chain replaced by longer valid chain")
  | none => (bc, false, "No longer valid chain found")

/-! ## Peer registry (`register_node`) -/

/-- Characters allowed in a URL scheme (`urllib.parse.scheme_chars`). -/
def schemeChar (c : Char) : Bool :=
  c.isAlpha || c.isDigit || c == '+' || c == '-' || c == '.'

/-- `urllib.parse.urlsplit` (CPython ≥ 3.6.8 — today's interpreters), the
parts `register_node` reads: returns `(scheme, netloc, path)`.  A leading
`letter+schemeChars` run before the first `:` is split off as the scheme;
`//` then introduces the netloc up to the next `/`, `?` or `#`; the path is
what remains before any fragment or query. -/
def urlsplit (address : String) : String × String × String :=
  let url := address.toList
  let i := url.findIdx (· = ':')
  let noScheme : List Char × List Char := ([], url)
  let sp :=
    if decide (i < url.length) && decide (0 < i) && (url.headD ' ').isAlpha &&
        (url.take i).all schemeChar then
      ((url.take i).map Char.toLower, url.drop (i + 1))
    else noScheme
  let np :=
    match sp.2 with
    | '/' :: '/' :: rest =>
        (rest.takeWhile fun c => ¬ (c = '/' ∨ c = '?' ∨ c = '#'),
         rest.dropWhile fun c => ¬ (c = '/' ∨ c = '?' ∨ c = '#'))
    | other => ([], other)
  let path := (np.2.takeWhile (· ≠ '#')).takeWhile (· ≠ '?')
  (String.mk sp.1, String.mk np.1, String.mk path)

/-- `set.add`: insert if absent. -/
def addNode (nodes : List String) (n : String) : List String :=
  if n ∈ nodes then nodes else nodes ++ [n]

/-- `Blockchain.register_node`: add the netloc if non-empty, else the path
if non-empty, else raise `ValueError("Invalid node address")`. -/
def register_node (nodes : List String) (address : String) :
    Except String (List String) :=
  let parsed := urlsplit address
  if parsed.2.1 ≠ "" then .ok (addNode nodes parsed.2.1)
  else if parsed.2.2 ≠ "" then .ok (addNode nodes parsed.2.2)
  else .error "Invalid node address"

/-! ## Mempool merge -/

/-- A mempool transaction as specified (§3 Data Model). -/
structure Transaction where
  txid : String
  nama : String
  nomor_sertifikat : String
  lokasi : String
  luas : String
  file_hash : Option String
  timestamp : Nat
deriving Repr, DecidableEq

/-- Modelled from the spec: the mempool merge step of
`Blockchain.sync_mempool` is code of this repository missing from `src/`
(`app.py` calls `blockchain.sync_mempool()` but `src/blockchain.py` does not
define it).  Spec §4.3 `merge(remoteTransactions)`: union by txid; an
incoming transaction whose txid already exists locally is ignored
(first-writer-wins); unknown ones are added. -/
def mergeMempool (pool remote : List Transaction) : List Transaction :=
  remote.foldl
    (fun acc t => if acc.any (fun l => l.txid == t.txid) then acc else acc ++ [t])
    pool

/-! ## Concrete inputs used by witnesses and counterexamples -/

/-- A sample certificate entry. -/
def wCert : Cert := ⟨"Budi", "SHM-100", "Bandung", "120", none⟩

/-- A genesis block mined at wall-clock time 0. -/
def wGenesis : Block := create_genesis_block 0

/-- A correctly linked successor of `wGenesis` (difficulty 0: any proof is
valid). -/
def wBlock2 : Block := Block.init 2 1 (.arr [wCert.toJ]) wGenesis.hash 1 0

/-- `wGenesis` as a peer-reported dict. -/
def wGenDict : BlockDict :=
  ⟨1, 0, .obj [("note", .str "Genesis Block")], [0], 0, some 0, some wGenesis.hash⟩

/-- `wBlock2` as a peer-reported dict. -/
def wBlock2Dict : BlockDict :=
  ⟨2, 1, .arr [wCert.toJ], wGenesis.hash, 1, some 0, some wBlock2.hash⟩

/-- A well-formed peer response carrying the 2-block chain above. -/
def wResp : PeerResp := ⟨some 2, some [wGenDict, wBlock2Dict]⟩

/-- A mutated genesis block: wrong sentinel, stored hash unrelated to its
content. -/
def mutGenesis : Block := ⟨1, 0, JVal.null, [5], 3, 0, [9]⟩

/-- A state holding only the mutated genesis. -/
def mutState : Blockchain := ⟨[mutGenesis], [], [], 3⟩

/-- A genesis dict whose previous-hash is not the sentinel `"0"`. -/
def badGenDict : BlockDict := ⟨1, 0, JVal.null, [1], 0, some 0, none⟩

/-- Two blocks agreeing on index, timestamp, data, previous hash and proof,
differing only in `nonce`. -/
def nonceBlockA : Block := Block.init 2 1700 (.arr [wCert.toJ]) [0] 7 0

/-- See `nonceBlockA`; this one has nonce 1. -/
def nonceBlockB : Block := Block.init 2 1700 (.arr [wCert.toJ]) [0] 7 1

/-- Scenario B's local transaction: txid `"a"`, luas `"100"`. -/
def txA : Transaction := ⟨"a", "Budi", "SHM-100", "Bandung", "100", none, 0⟩

/-- Scenario B's conflicting remote transaction: txid `"a"`, luas `"999"`. -/
def txA9 : Transaction := ⟨"a", "Budi", "SHM-100", "Bandung", "999", none, 0⟩

/-- Scenario B's fresh remote transaction: txid `"b"`. -/
def txB : Transaction := ⟨"b", "Sari", "SHM-200", "Jakarta", "80", none, 0⟩

/-- The states reachable from a fresh ledger solely through successful
mine-and-append operations — the only append path the program offers:
`add_certificate_and_mine` runs the PoW search from the head's proof and
appends via `new_block` with the head's hash. -/
inductive Mined : Blockchain → Prop where
  | genesis (difficulty timestamp : Nat) : Mined (newBlockchain difficulty timestamp)
  | mine (bc : Blockchain) (timestamp : Nat) (nama nomor lokasi luas : String)
      (file_hash : Option String)
      (h : ∃ p, valid_proof bc.last_block.proof p bc.difficulty = true)
      (prev : Mined bc) :
      Mined (add_certificate_and_mine bc timestamp nama nomor lokasi luas file_hash h).1

end LandChain

namespace LandChain

/-! ## Helper lemmas: the pairwise validation loop -/

theorem chainStep_eq_none_iff {difficulty : Nat} {previous current : Block} :
    chainStep difficulty previous current = none ↔
      (current.previous_hash = previous.hash ∧ current.hash = current.hash_block ∧
       startsWithZeros (powDigest previous.proof current.proof) difficulty = true) := by
  unfold chainStep
  split_ifs with h1 h2 h3 <;> simp_all

theorem pairsOk_eq_true_iff (difficulty : Nat) :
    ∀ l : List Block,
      pairsOk difficulty l = true ↔ l.Chain' fun a b => chainStep difficulty a b = none
  | [] => by simp [pairsOk]
  | [a] => by simp [pairsOk]
  | a :: b :: l => by
      rw [List.chain'_cons, ← pairsOk_eq_true_iff difficulty (b :: l)]
      cases h : chainStep difficulty a b <;> simp [pairsOk, h]

theorem checkFrom_eq_iff (difficulty : Nat) :
    ∀ l : List Block,
      checkFrom difficulty l = (true, "Chain valid") ↔
        l.Chain' fun a b => chainStep difficulty a b = none
  | [] => by simp [checkFrom]
  | [a] => by simp [checkFrom]
  | a :: b :: l => by
      rw [List.chain'_cons, ← checkFrom_eq_iff difficulty (b :: l)]
      cases h : chainStep difficulty a b <;> simp [checkFrom, h]

theorem chain'_linkage_iff (difficulty : Nat) (l : List Block) :
    (l.Chain' fun a b => chainStep difficulty a b = none) ↔
      l.Chain' (fun prev curr =>
        curr.previous_hash = prev.hash ∧ curr.hash = curr.hash_block ∧
        startsWithZeros (powDigest prev.proof curr.proof) difficulty = true) :=
  ⟨fun h => h.imp fun _ _ hab => chainStep_eq_none_iff.mp hab,
   fun h => h.imp fun _ _ hab => chainStep_eq_none_iff.mpr hab⟩

/-! ## C1 -/

/-- C1 counterexample: the supplied previous-hash `"1"` does not match the
head's hash, yet `new_block` appends anyway — the chain grows and no error
occurs, so appending does not "fail with a ChainLinkage error" and the chain
is not "left unchanged". -/
theorem new_block_bad_prev_hash_still_appended :
    [1] ≠ (newBlockchain 3 0).last_block.hash ∧
    (new_block (newBlockchain 3 0) 1 7 (some [1])).2.previous_hash = [1] ∧
    (new_block (newBlockchain 3 0) 1 7 (some [1])).1.chain.length =
      (newBlockchain 3 0).chain.length + 1 := by
  refine ⟨?_, rfl, rfl⟩
  decide

/-- C1 amended: `new_block` performs no linkage or index check and never
fails: it always appends exactly one block whose index is the head's index
plus 1 and whose previous-hash is the supplied value (falling back to the
head's hash when the argument is absent or falsy). -/
theorem new_block_appends_unconditionally (bc : Blockchain) (timestamp proof : Nat)
    (previous_hash : Option (List Nat)) :
    (new_block bc timestamp proof previous_hash).1.chain
        = bc.chain ++ [(new_block bc timestamp proof previous_hash).2] ∧
    (new_block bc timestamp proof previous_hash).2.index = bc.last_block.index + 1 ∧
    (new_block bc timestamp proof previous_hash).2.previous_hash =
      (match previous_hash with
       | some ph => if ph.isEmpty then bc.last_block.hash else ph
       | none => bc.last_block.hash) :=
  ⟨rfl, rfl, rfl⟩

/-! ## C2 -/

/-- C2 counterexample: a one-block candidate whose genesis carries
previous-hash `"1"`, not the sentinel `"0"`, is accepted by
`valid_chain_from_nodes` — the genesis sentinel check (a) is never made. -/
theorem valid_chain_accepts_bad_genesis_sentinel :
    (valid_chain_from_nodes 3 [badGenDict]).1 = true ∧
    (Block.from_dict badGenDict).previous_hash ≠ [0] := by
  refine ⟨rfl, ?_⟩
  decide

/-- C2 amended: chain validation runs exactly the adjacent-pair checks (b)
linkage, (c) hash integrity, (d) proof-of-work, and accepts iff all pairs
pass; the genesis sentinel previous-hash is never checked. -/
theorem valid_chain_checks_pairs_only (difficulty : Nat) (chain_data : List BlockDict) :
    (valid_chain_from_nodes difficulty chain_data).1 = true ↔
      (chain_data.map Block.from_dict).Chain' (fun prev curr =>
        curr.previous_hash = prev.hash ∧ curr.hash = curr.hash_block ∧
        startsWithZeros (powDigest prev.proof curr.proof) difficulty = true) := by
  rw [← chain'_linkage_iff, ← pairsOk_eq_true_iff]
  unfold valid_chain_from_nodes
  cases h : pairsOk difficulty (chain_data.map Block.from_dict) <;> simp [h]

/-! ## C6 -/

/-- C6: evaluating `register_node` on the specified inputs.  The
`http://host:port` form normalizes as claimed, but on today's CPython
(≥ 3.6.8) `urlparse("localhost:5002")` splits `localhost` off as a URL
scheme, so the bare form registers the entry `"5002"`, not
`"localhost:5002"` — contradicting the code's own comment
"Accept formats like 'localhost:5001'" — and `"not a url"` parses with a
non-empty path, so it is registered instead of raising
`ValueError("Invalid node address")`. -/
theorem register_node_normalization_bug :
    register_node [] "http://localhost:5001" = .ok ["localhost:5001"] ∧
    register_node [] "localhost:5002" = .ok ["5002"] ∧
    register_node [] "not a url" = .ok ["not a url"] ∧
    register_node [] "" = .error "Invalid node address" :=
  ⟨rfl, rfl, rfl, rfl⟩

/-! ## C10 -/

/-- C10: on any chain of length at most 1 the local validity check returns
`(True, "Chain valid")` whatever the genesis block contains — the loop body
never runs, so the genesis hash is never recomputed and its previous-hash is
never compared to the sentinel. -/
theorem short_chain_always_valid (bc : Blockchain) (h : bc.chain.length ≤ 1) :
    is_chain_valid bc = (true, "Chain valid") := by
  obtain ⟨chain, cur, nodes, d⟩ := bc
  match chain with
  | [] => rfl
  | [b] => rfl
  | a :: b :: l => simp at h

/-- C10 witness: a genesis whose previous-hash is not the sentinel and whose
stored hash does not match its content still validates. -/
theorem short_chain_always_valid_witness :
    mutState.chain.length ≤ 1 ∧ is_chain_valid mutState = (true, "Chain valid") ∧
    mutGenesis.previous_hash ≠ [0] ∧ mutGenesis.hash ≠ mutGenesis.hash_block :=
  ⟨by decide, short_chain_always_valid mutState (by decide), by decide, by decide⟩

end LandChain

namespace LandChain

/-! ## Reference vectors pinning the embedding to the Python stdlib

`jdump`/`Block.hash_block` reproduce, character for character and nibble for
nibble, what `json.dumps(..., sort_keys=True)` and
`hashlib.sha256(...).hexdigest()` return on the same inputs, and `sha256hex`
matches the FIPS 180-4 test vector for `"abc"`. -/

theorem sha256hex_abc_vector :
    sha256hex (strBytes "abc") =
    [0xb,0xa,0x7,0x8,0x1,0x6,0xb,0xf,0x8,0xf,0x0,0x1,0xc,0xf,0xe,0xa,
     0x4,0x1,0x4,0x1,0x4,0x0,0xd,0xe,0x5,0xd,0xa,0xe,0x2,0x2,0x2,0x3,
     0xb,0x0,0x0,0x3,0x6,0x1,0xa,0x3,0x9,0x6,0x1,0x7,0x7,0xa,0x9,0xc,
     0xb,0x4,0x1,0x0,0xf,0xf,0x6,0x1,0xf,0x2,0x0,0x0,0x1,0x5,0xa,0xd] := by decide

theorem jdump_matches_cpython :
    jdump (JVal.obj (blockFields 2 1700
      (.arr [Cert.toJ ⟨"Budi", "SHM-1", "Bandung", "120", none⟩])
      [0, 0xa, 0xb, 0xc] 7 0)) =
    "\x7b\"data\": [\x7b\"file_hash\": null, \"lokasi\": \"Bandung\", \"luas\": \"120\", \"nama\": \"Budi\", \"nomor_sertifikat\": \"SHM-1\"\x7d], \"index\": 2, \"nonce\": 0, \"previous_hash\": \"0abc\", \"proof\": 7, \"timestamp\": 1700\x7d" := rfl

theorem hash_block_matches_hashlib :
    (Block.init 2 1700
      (.arr [Cert.toJ ⟨"Budi", "SHM-1", "Bandung", "120", none⟩])
      [0, 0xa, 0xb, 0xc] 7 0).hash =
    [5,0xb,7,0xe,3,3,0xb,3,7,3,0xd,7,9,4,0xe,0xd,6,6,0xc,0xe,0xe,0xb,9,7,
     0xc,5,0xb,0,0xd,1,6,0xe,5,0xc,0xe,0xf,1,0xf,6,3,2,0xc,0xd,0xe,0,5,5,0xa,
     4,8,1,3,0xb,5,0xc,9,8,0xc,4,8,2,3,9,4] := rfl

end LandChain

namespace LandChain

/-! ## C4 -/

/-- C4: with a terminating search (some valid proof exists), `proof_of_work`
returns a valid proof, every smaller candidate is invalid (so the result is
the smallest non-negative valid proof), and difficulty 0 yields 0 at once
since every digest starts with the empty prefix. -/
theorem proof_of_work_minimal (difficulty last_proof : Nat)
    (h : ∃ p, valid_proof last_proof p difficulty = true) :
    valid_proof last_proof (proof_of_work difficulty last_proof h) difficulty = true ∧
    (∀ q, q < proof_of_work difficulty last_proof h →
      valid_proof last_proof q difficulty = false) ∧
    (difficulty = 0 → proof_of_work difficulty last_proof h = 0) := by
  refine ⟨Nat.find_spec h, fun q hq => ?_, fun hd => ?_⟩
  · have := Nat.find_min h hq
    simpa using this
  · subst hd
    refine Nat.le_zero.mp (Nat.find_le ?_)
    simp [valid_proof, startsWithZeros]

/-- C4 witness: at difficulty 0 the miner stops at proof 0 immediately. -/
theorem proof_of_work_minimal_witness :
    valid_proof 0 (proof_of_work 0 0 ⟨0, by decide⟩) 0 = true ∧
    proof_of_work 0 0 ⟨0, by decide⟩ = 0 :=
  ⟨(proof_of_work_minimal 0 0 ⟨0, by decide⟩).1,
   (proof_of_work_minimal 0 0 ⟨0, by decide⟩).2.2 rfl⟩

/-! ## C9 -/

theorem mergeMempool_nil (pool : List Transaction) : mergeMempool pool [] = pool := rfl

theorem mergeMempool_cons (pool : List Transaction) (t : Transaction)
    (r : List Transaction) :
    mergeMempool pool (t :: r) =
      mergeMempool (if pool.any (fun l => l.txid == t.txid) then pool else pool ++ [t]) r :=
  rfl

theorem any_mergeMempool {f : Transaction → Bool} (r pool : List Transaction)
    (h : pool.any f = true) : (mergeMempool pool r).any f = true := by
  induction r generalizing pool with
  | nil => exact h
  | cons t r ih =>
      rw [mergeMempool_cons]
      cases hc : pool.any fun l => l.txid == t.txid
      · simpa [hc] using ih (pool ++ [t]) (by simp [h])
      · simpa [hc] using ih pool h

theorem txid_present_after_merge (r pool : List Transaction) (t : Transaction)
    (ht : t ∈ r) :
    (mergeMempool pool r).any (fun l => l.txid == t.txid) = true := by
  induction r generalizing pool with
  | nil => cases ht
  | cons s r ih =>
      rw [mergeMempool_cons]
      rcases List.mem_cons.mp ht with rfl | ht
      · cases hc : pool.any fun l => l.txid == t.txid
        · simp only [hc, if_neg Bool.false_ne_true]
          exact any_mergeMempool _ _ (by simp)
        · simp only [hc, if_pos rfl]
          exact any_mergeMempool _ _ hc
      · cases hc : pool.any fun l => l.txid == s.txid
        · simp only [hc, if_neg Bool.false_ne_true]
          exact ih (pool ++ [s]) ht
        · simp only [hc, if_pos rfl]
          exact ih pool ht

theorem merge_noop_of_all_present (r pool : List Transaction)
    (h : ∀ t ∈ r, pool.any (fun l => l.txid == t.txid) = true) :
    mergeMempool pool r = pool := by
  induction r with
  | nil => rfl
  | cons t r ih =>
      rw [mergeMempool_cons, if_pos (h t (by simp))]
      exact ih fun s hs => h s (by simp [hs])

theorem merge_extends (r pool : List Transaction) :
    ∃ added, mergeMempool pool r = pool ++ added := by
  induction r generalizing pool with
  | nil => exact ⟨[], (List.append_nil pool).symm⟩
  | cons t r ih =>
      rw [mergeMempool_cons]
      cases hc : pool.any fun l => l.txid == t.txid
      · simp only [hc, if_neg Bool.false_ne_true]
        obtain ⟨a, ha⟩ := ih (pool ++ [t])
        exact ⟨t :: a, by simpa using ha⟩
      · simp only [hc, if_pos rfl]
        exact ih pool

/-- C9: `merge` is idempotent (merging the same remote pool twice equals
merging it once); an incoming transaction whose txid exists locally is
ignored while a fresh txid is appended; and the local entries are never
modified — the merged pool extends the local pool. -/
theorem mergeMempool_idempotent_first_writer_wins (pool remote : List Transaction) :
    mergeMempool (mergeMempool pool remote) remote = mergeMempool pool remote ∧
    (∀ t, pool.any (fun l => l.txid == t.txid) = true → mergeMempool pool [t] = pool) ∧
    (∀ t, pool.any (fun l => l.txid == t.txid) = false →
      mergeMempool pool [t] = pool ++ [t]) ∧
    (∃ added, mergeMempool pool remote = pool ++ added) := by
  refine ⟨?_, fun t ht => ?_, fun t ht => ?_, merge_extends remote pool⟩
  · exact merge_noop_of_all_present remote _ fun t ht =>
      txid_present_after_merge remote pool t ht
  · rw [mergeMempool_cons, if_pos ht, mergeMempool_nil]
  · rw [mergeMempool_cons, if_neg (by simp [ht]), mergeMempool_nil]

/-- C9 witness: the spec's Scenario B — the remote duplicate of txid `"a"`
is ignored, txid `"b"` is added, and re-merging changes nothing. -/
theorem mergeMempool_idempotent_first_writer_wins_witness :
    mergeMempool (mergeMempool [txA] [txA9, txB]) [txA9, txB] =
      mergeMempool [txA] [txA9, txB] ∧
    mergeMempool [txA] [txA9, txB] = [txA, txB] :=
  ⟨(mergeMempool_idempotent_first_writer_wins [txA] [txA9, txB]).1, by decide⟩

end LandChain

namespace LandChain

/-! ## C3 -/

theorem valid_chain_from_nodes_sound {difficulty : Nat} {chain_data : List BlockDict}
    (h : (valid_chain_from_nodes difficulty chain_data).1 = true) :
    pairsOk difficulty (valid_chain_from_nodes difficulty chain_data).2 = true := by
  by_cases hp : pairsOk difficulty (chain_data.map Block.from_dict) = true
  · simp [valid_chain_from_nodes, hp]
  · exfalso
    simp [valid_chain_from_nodes, hp] at h

theorem resolve_fold_inv (difficulty n0 : Nat) (responses : List (Option PeerResp)) :
    ∀ acc : Nat × Option (List Block),
      (n0 ≤ acc.1 ∧ ∀ c, acc.2 = some c →
        acc.1 = c.length ∧ pairsOk difficulty c = true ∧ n0 < c.length) →
      n0 ≤ (responses.foldl (considerPeer difficulty) acc).1 ∧
      ∀ c, (responses.foldl (considerPeer difficulty) acc).2 = some c →
        (responses.foldl (considerPeer difficulty) acc).1 = c.length ∧
        pairsOk difficulty c = true ∧ n0 < c.length := by
  induction responses with
  | nil => exact fun acc h => h
  | cons resp rest ih =>
      intro acc hacc
      rw [List.foldl_cons]
      apply ih
      rcases resp with _ | ⟨len?, chain?⟩
      · exact hacc
      · rcases len? with _ | length
        · rcases chain? with _ | chain_data <;> exact hacc
        · rcases chain? with _ | chain_data
          · exact hacc
          · unfold considerPeer
            dsimp only
            by_cases h1 : acc.1 < length
            · rw [if_pos h1]
              cases hb : (valid_chain_from_nodes difficulty chain_data).1 &&
                  decide (acc.1 < (valid_chain_from_nodes difficulty chain_data).2.length)
              · rw [if_neg (by simp [hb])]
                exact hacc
              · rw [if_pos (by simp [hb])]
                have hb' : (valid_chain_from_nodes difficulty chain_data).1 = true ∧
                    acc.1 < (valid_chain_from_nodes difficulty chain_data).2.length := by
                  simpa using hb
                rcases hb' with ⟨hv, hlt'⟩
                refine ⟨Nat.le_trans hacc.1 (Nat.le_of_lt hlt'), fun c hc => ?_⟩
                cases hc
                exact ⟨rfl, valid_chain_from_nodes_sound hv,
                  Nat.lt_of_le_of_lt hacc.1 hlt'⟩
            · rw [if_neg h1]
              exact hacc

/-- C3: whenever `resolve_conflicts` replaces the local chain, the adopted
chain is strictly longer than the chain held before resolution and passes
the full pairwise validation (linkage, hash integrity, proof of work) —
candidates of smaller or equal length, and invalid candidates of any
length, are never adopted. -/
theorem resolve_conflicts_adopts_longer_valid (bc : Blockchain)
    (responses : List (Option PeerResp)) (bc' : Blockchain) (msg : String)
    (h : resolve_conflicts bc responses = (bc', true, msg)) :
    bc.chain.length < bc'.chain.length ∧ pairsOk bc.difficulty bc'.chain = true := by
  have hinv := resolve_fold_inv bc.difficulty bc.chain.length responses
      (bc.chain.length, none) ⟨Nat.le_refl _, fun c hc => by cases hc⟩
  unfold resolve_conflicts at h
  dsimp only at h
  rcases hr : (responses.foldl (considerPeer bc.difficulty) (bc.chain.length, none)).2
    with _ | c
  · rw [hr] at h
    dsimp only at h
    exact absurd (congrArg (fun p => p.2.1) h) (by simp)
  · rw [hr] at h
    dsimp only at h
    cases c with
    | nil => simp at h
    | cons b cs =>
        rw [if_neg (by simp)] at h
        have hb : bc' = { bc with chain := b :: cs } :=
          (congrArg Prod.fst h).symm
        obtain ⟨hlen, hok, hgt⟩ := hinv.2 (b :: cs) hr
        rw [hb]
        exact ⟨hgt, hok⟩

/-- C3 witness: a valid two-block peer chain at difficulty 0 replaces the
genesis-only local chain; the adopted chain is longer and validates. -/
theorem resolve_conflicts_adopts_longer_valid_witness :
    (newBlockchain 0 0).chain.length <
      (resolve_conflicts (newBlockchain 0 0) [some wResp]).1.chain.length ∧
    pairsOk 0 (resolve_conflicts (newBlockchain 0 0) [some wResp]).1.chain = true :=
  resolve_conflicts_adopts_longer_valid (newBlockchain 0 0) [some wResp] _ _ rfl

/-! ## C7 -/

/-- C7 counterexample: consensus adoption does not reconcile the buffer.
With certificate `wCert` buffered and a peer chain whose second block embeds
that very certificate, `resolve_conflicts` adopts the chain yet leaves the
buffer unchanged, so the certificate would be mined again. -/
theorem resolve_conflicts_leaves_buffer :
    (resolve_conflicts ⟨[wGenesis], [wCert], [], 0⟩ [some wResp]).2.1 = true ∧
    ((resolve_conflicts ⟨[wGenesis], [wCert], [], 0⟩ [some wResp]).1.chain.getLastD
        default).data = .arr [wCert.toJ] ∧
    (resolve_conflicts ⟨[wGenesis], [wCert], [], 0⟩ [some wResp]).1.current_data
        = [wCert] :=
  ⟨rfl, rfl, rfl⟩

/-- C7 amended: the buffer is cleared exactly by `new_block`, which embeds
the whole buffer into the block it unconditionally appends (the append
cannot fail); consensus adoption replaces the chain but never touches the
buffer, so transactions embedded in an adopted peer chain are not removed. -/
theorem buffer_cleared_only_on_append (bc : Blockchain) (timestamp proof : Nat)
    (previous_hash : Option (List Nat)) (responses : List (Option PeerResp)) :
    ((new_block bc timestamp proof previous_hash).2.data
        = .arr (bc.current_data.map Cert.toJ) ∧
     (new_block bc timestamp proof previous_hash).1.current_data = [] ∧
     (new_block bc timestamp proof previous_hash).1.chain
        = bc.chain ++ [(new_block bc timestamp proof previous_hash).2]) ∧
    (resolve_conflicts bc responses).1.current_data = bc.current_data := by
  refine ⟨⟨rfl, rfl, rfl⟩, ?_⟩
  unfold resolve_conflicts
  dsimp only
  rcases hfold : (responses.foldl (considerPeer bc.difficulty) (bc.chain.length, none)).2
    with _ | c
  · rfl
  · cases c <;> rfl

end LandChain

namespace LandChain

/-! ## C8 -/

theorem block_init_hash (index timestamp : Nat) (data : JVal) (previous_hash : List Nat)
    (proof nonce : Nat) :
    (Block.init index timestamp data previous_hash proof nonce).hash =
      (Block.init index timestamp data previous_hash proof nonce).hash_block := rfl

theorem mined_invariant {bc : Blockchain} (h : Mined bc) :
    bc.chain.Chain' fun a b => chainStep bc.difficulty a b = none := by
  induction h with
  | genesis difficulty timestamp => exact List.chain'_singleton _
  | mine bc timestamp nama nomor lokasi luas file_hash hex prev ih =>
      have hchain :
          (add_certificate_and_mine bc timestamp nama nomor lokasi luas file_hash hex).1.chain
            = bc.chain ++
              [(add_certificate_and_mine bc timestamp nama nomor lokasi luas file_hash hex).2.1] :=
        rfl
      show ((add_certificate_and_mine bc timestamp nama nomor lokasi luas file_hash
          hex).1.chain).Chain' fun a b => chainStep bc.difficulty a b = none
      rw [hchain]
      refine List.chain'_append.mpr ⟨ih, List.chain'_singleton _, ?_⟩
      intro x hx y hy
      have hx' : bc.chain.getLastD default = x := by
        rw [List.getLastD_eq_getLast? default bc.chain, Option.mem_def.mp hx]
        rfl
      have hy0 : some (add_certificate_and_mine bc timestamp nama nomor lokasi luas
          file_hash hex).2.1 = some y := Option.mem_def.mp hy
      have hy' : (add_certificate_and_mine bc timestamp nama nomor lokasi luas
          file_hash hex).2.1 = y := Option.some.inj hy0
      rw [← hx', ← hy']
      apply chainStep_eq_none_iff.mpr
      refine ⟨?_, rfl, Nat.find_spec hex⟩
      exact ite_self _

/-- C8: every chain obtained from the genesis block solely through
successful mine-and-append operations passes the full-chain validity check,
returning `(True, "Chain valid")`. -/
theorem mined_chain_valid (bc : Blockchain) (h : Mined bc) :
    is_chain_valid bc = (true, "Chain valid") :=
  (checkFrom_eq_iff bc.difficulty bc.chain).mpr (mined_invariant h)

/-- C8 witness: a genesis-only ledger at difficulty 0 extended by one mined
block validates. -/
theorem mined_chain_valid_witness :
    is_chain_valid (add_certificate_and_mine (newBlockchain 0 0) 1 "Budi" "SHM-100"
        "Bandung" "120" none ⟨0, by decide⟩).1 = (true, "Chain valid") :=
  mined_chain_valid _ (Mined.mine (newBlockchain 0 0) 1 "Budi" "SHM-100" "Bandung" "120"
    none ⟨0, by decide⟩ (Mined.genesis 0 0))

end LandChain

namespace LandChain

/-! ## C5 -/

theorem char_eq_of_toNat_eq {a b : Char} (h : a.toNat = b.toNat) : a = b :=
  Char.ext (UInt32.ext h)

theorem leChars_total : ∀ a b : List Char, leChars a b = true ∨ leChars b a = true
  | [], _ => Or.inl rfl
  | _ :: _, [] => Or.inr rfl
  | c :: cs, d :: ds => by
      by_cases hcd : c = d
      · subst hcd
        rcases leChars_total cs ds with h | h
        · exact Or.inl (by simpa [leChars] using h)
        · exact Or.inr (by simpa [leChars] using h)
      · have hne : c.toNat ≠ d.toNat := fun he => hcd (char_eq_of_toNat_eq he)
        rcases Nat.lt_or_ge c.toNat d.toNat with hlt | hge
        · exact Or.inl (by simp [leChars, hcd, hlt])
        · have hgt : d.toNat < c.toNat :=
            Nat.lt_of_le_of_ne hge fun e => hne e.symm
          exact Or.inr (by simp [leChars, Ne.symm hcd, hgt])

theorem leChars_trans : ∀ a b c : List Char, leChars a b = true → leChars b c = true →
    leChars a c = true
  | [], _, _, _, _ => rfl
  | _ :: _, [], _, h1, _ => by simp [leChars] at h1
  | _ :: _, _ :: _, [], _, h2 => by simp [leChars] at h2
  | a :: as, b :: bs, c :: cs, h1, h2 => by
      by_cases hab : a = b <;> by_cases hbc : b = c
      · subst hab; subst hbc
        simp only [leChars, if_pos rfl] at h1 h2 ⊢
        exact leChars_trans as bs cs h1 h2
      · subst hab
        have h2' : a.toNat < c.toNat := by simpa [leChars, hbc] using h2
        simp [leChars, hbc, h2']
      · subst hbc
        have h1' : a.toNat < b.toNat := by simpa [leChars, hab] using h1
        simp [leChars, hab, h1']
      · have h1' : a.toNat < b.toNat := by simpa [leChars, hab] using h1
        have h2' : b.toNat < c.toNat := by simpa [leChars, hbc] using h2
        have hac : a.toNat < c.toNat := Nat.lt_trans h1' h2'
        have hane : a ≠ c := fun e => absurd (e ▸ hac) (Nat.lt_irrefl _)
        simp [leChars, hane, hac]

theorem leChars_antisymm : ∀ a b : List Char, leChars a b = true → leChars b a = true →
    a = b
  | [], [], _, _ => rfl
  | [], _ :: _, _, h2 => by simp [leChars] at h2
  | _ :: _, [], h1, _ => by simp [leChars] at h1
  | a :: as, b :: bs, h1, h2 => by
      by_cases hab : a = b
      · subst hab
        have htl := leChars_antisymm as bs (by simpa [leChars] using h1)
          (by simpa [leChars] using h2)
        rw [htl]
      · have h1' : a.toNat < b.toNat := by simpa [leChars, hab] using h1
        have h2' : b.toNat < a.toNat := by simpa [leChars, Ne.symm hab] using h2
        exact absurd (Nat.lt_trans h1' h2') (Nat.lt_irrefl _)

theorem strLe_antisymm {a b : String} (h1 : strLe a b = true) (h2 : strLe b a = true) :
    a = b := by
  cases a with
  | mk la =>
    cases b with
    | mk lb => exact congrArg String.mk (leChars_antisymm la lb h1 h2)

theorem sortFields_perm_eq {l l' : List (String × JVal)} (hp : l.Perm l')
    (hnd : (l.map Prod.fst).Nodup) : sortFields l = sortFields l' := by
  haveI ht : IsTotal (String × JVal) fun a b => strLe a.1 b.1 = true :=
    ⟨fun a b => leChars_total a.1.toList b.1.toList⟩
  haveI htr : IsTrans (String × JVal) fun a b => strLe a.1 b.1 = true :=
    ⟨fun a b c => leChars_trans a.1.toList b.1.toList c.1.toList⟩
  have hs1 : (sortFields l).Sorted fun a b => strLe a.1 b.1 = true :=
    List.sorted_insertionSort _ l
  have hs2 : (sortFields l').Sorted fun a b => strLe a.1 b.1 = true :=
    List.sorted_insertionSort _ l'
  have hperm : (sortFields l).Perm (sortFields l') :=
    (List.perm_insertionSort _ l).trans (hp.trans (List.perm_insertionSort _ l').symm)
  have hnd1 : ((sortFields l).map Prod.fst).Nodup :=
    ((List.perm_insertionSort _ l).map Prod.fst).nodup_iff.mpr hnd
  have hnd2 : ((sortFields l').map Prod.fst).Nodup :=
    ((List.perm_insertionSort _ l').map Prod.fst).nodup_iff.mpr
      ((hp.map Prod.fst).nodup_iff.mp hnd)
  have strict : ∀ m : List (String × JVal),
      (m.Sorted fun a b => strLe a.1 b.1 = true) → (m.map Prod.fst).Nodup →
      m.Pairwise fun a b => strLe a.1 b.1 = true ∧ a.1 ≠ b.1 := fun m hs hn =>
    hs.and ((List.pairwise_map).mp hn)
  haveI : IsAntisymm (String × JVal) fun a b => strLe a.1 b.1 = true ∧ a.1 ≠ b.1 :=
    ⟨fun a b hab hba => absurd (strLe_antisymm hab.1 hba.1) hab.2⟩
  exact List.eq_of_perm_of_sorted hperm (strict _ hs1 hnd1) (strict _ hs2 hnd2)

theorem blockFields_map_fst (index timestamp : Nat) (data : JVal)
    (previous_hash : List Nat) (proof nonce : Nat) :
    (blockFields index timestamp data previous_hash proof nonce).map Prod.fst =
      ["index", "timestamp", "data", "previous_hash", "proof", "nonce"] := rfl

theorem jdumpF_obj (fuel : Nat) (fs : List (String × JVal)) :
    jdumpF (fuel + 1) (JVal.obj fs) =
      obrace ++ String.intercalate ", "
        ((sortFields fs).map fun p => jquote p.1 ++ ": " ++ jdumpF fuel p.2) ++ cbrace :=
  rfl

/-- C5 counterexample: the digest covers `nonce` as well: `nonceBlockA` and
`nonceBlockB` agree on index, timestamp, transactions, previous hash and
proof — the claim's five canonical fields — yet their hashes differ because
their nonces differ. -/
theorem hash_depends_on_nonce :
    nonceBlockA.index = nonceBlockB.index ∧
    nonceBlockA.timestamp = nonceBlockB.timestamp ∧
    nonceBlockA.data = nonceBlockB.data ∧
    nonceBlockA.previous_hash = nonceBlockB.previous_hash ∧
    nonceBlockA.proof = nonceBlockB.proof ∧
    nonceBlockA.hash ≠ nonceBlockB.hash := by
  refine ⟨rfl, rfl, rfl, rfl, rfl, ?_⟩
  decide

/-- C5 amended: the digest is a function of exactly the six serialized
fields — the claim's five plus `nonce` — and the serialization sorts the
keys, so dumping the six fields in any order whatsoever reproduces the
block's hash. -/
theorem hash_block_canonical (b : Block) (l : List (String × JVal))
    (hp : l.Perm (blockFields b.index b.timestamp b.data b.previous_hash b.proof b.nonce)) :
    sha256hex (strBytes (jdump (JVal.obj l))) = b.hash_block := by
  have hnd : ((blockFields b.index b.timestamp b.data b.previous_hash b.proof
      b.nonce).map Prod.fst).Nodup := by
    rw [blockFields_map_fst]
    decide
  have hnd' : (l.map Prod.fst).Nodup := (hp.map Prod.fst).nodup_iff.mpr hnd
  have hs : sortFields l = sortFields (blockFields b.index b.timestamp b.data
      b.previous_hash b.proof b.nonce) := sortFields_perm_eq hp hnd'
  have e1 : jdump (JVal.obj l) = obrace ++ String.intercalate ", "
      ((sortFields l).map fun p => jquote p.1 ++ ": " ++ jdumpF 15 p.2) ++ cbrace :=
    jdumpF_obj 15 l
  have e2 : jdump (JVal.obj (blockFields b.index b.timestamp b.data b.previous_hash
      b.proof b.nonce)) = obrace ++ String.intercalate ", "
      ((sortFields (blockFields b.index b.timestamp b.data b.previous_hash b.proof
        b.nonce)).map fun p => jquote p.1 ++ ": " ++ jdumpF 15 p.2) ++ cbrace :=
    jdumpF_obj 15 _
  show sha256hex (strBytes (jdump (JVal.obj l))) =
    sha256hex (strBytes (jdump (JVal.obj (blockFields b.index b.timestamp b.data
      b.previous_hash b.proof b.nonce))))
  rw [e1, e2, hs]

/-- C5 witness: serializing `nonceBlockA`'s six fields in reverse order
still yields its hash. -/
theorem hash_block_canonical_witness :
    sha256hex (strBytes (jdump (JVal.obj
      (blockFields nonceBlockA.index nonceBlockA.timestamp nonceBlockA.data
        nonceBlockA.previous_hash nonceBlockA.proof nonceBlockA.nonce).reverse)))
      = nonceBlockA.hash_block :=
  hash_block_canonical nonceBlockA _ (List.reverse_perm _)

end LandChain
